import Mathlib

/-!
Verification of the capacity-aware text splitter of `text_to_qr.py`
(class `TextToQRCode`).

Modelling conventions:
* Python `str` values are `List Char` (Unicode scalar values).
* Python `bytes` values are `List Nat` (each entry < 256).
* `text.encode('utf-8')` is `utf8Encode`; `bytes.decode('utf-8')`, which
  raises `UnicodeDecodeError` on invalid input, is `utf8Decode` returning
  `Option` (strict decoding: rejects truncated sequences, overlong forms,
  surrogates and out-of-range code points, as CPython does).
* Dictionary lookup that can raise `KeyError` is modelled with `Option`.
* `math.ceil(a / b)` on naturals is `(a + b - 1) / b` (equal for `b > 0`,
  and both are `0` when `a = 0`).
-/

set_option maxRecDepth 40000

namespace TextToQR

/-- UTF-8 encoding of one Unicode scalar value, as `bytes` entries. -/
def utf8EncodeChar (c : Char) : List Nat :=
  let n := c.toNat
  if n < 128 then [n]
  else if n < 2048 then [192 + n / 64, 128 + n % 64]
  else if n < 65536 then [224 + n / 4096, 128 + n / 64 % 64, 128 + n % 64]
  else [240 + n / 262144, 128 + n / 4096 % 64, 128 + n / 64 % 64, 128 + n % 64]

/-- Model of Python `text.encode('utf-8')`. -/
def utf8Encode (s : List Char) : List Nat :=
  (s.map utf8EncodeChar).flatten

/-- Strict UTF-8 decoding of one scalar value from a lead byte `b` and the
following bytes `bs`: the decoded character and the bytes left over, or
`none` on any malformed, truncated, overlong, surrogate or out-of-range
sequence (the cases where CPython raises `UnicodeDecodeError`). -/
def utf8DecodeOne (b : Nat) (bs : List Nat) : Option (Char × List Nat) :=
  if b < 128 then some (Char.ofNat b, bs)
  else if b < 194 then none
  else if b < 224 then
    match bs with
    | b1 :: bs1 =>
      if 128 ≤ b1 ∧ b1 < 192 then
        some (Char.ofNat ((b - 192) * 64 + (b1 - 128)), bs1)
      else none
    | [] => none
  else if b < 240 then
    match bs with
    | b1 :: b2 :: bs2 =>
      if (128 ≤ b1 ∧ b1 < 192) ∧ (128 ≤ b2 ∧ b2 < 192) then
        if 2048 ≤ (b - 224) * 4096 + (b1 - 128) * 64 + (b2 - 128) ∧
            ¬ (55296 ≤ (b - 224) * 4096 + (b1 - 128) * 64 + (b2 - 128) ∧
               (b - 224) * 4096 + (b1 - 128) * 64 + (b2 - 128) ≤ 57343) then
          some (Char.ofNat ((b - 224) * 4096 + (b1 - 128) * 64 + (b2 - 128)), bs2)
        else none
      else none
    | _ => none
  else if b < 245 then
    match bs with
    | b1 :: b2 :: b3 :: bs3 =>
      if (128 ≤ b1 ∧ b1 < 192) ∧ (128 ≤ b2 ∧ b2 < 192) ∧ (128 ≤ b3 ∧ b3 < 192) then
        if 65536 ≤ (b - 240) * 262144 + (b1 - 128) * 4096 + (b2 - 128) * 64 + (b3 - 128) ∧
            (b - 240) * 262144 + (b1 - 128) * 4096 + (b2 - 128) * 64 + (b3 - 128) < 1114112 then
          some (Char.ofNat ((b - 240) * 262144 + (b1 - 128) * 4096 + (b2 - 128) * 64 + (b3 - 128)), bs3)
        else none
      else none
    | _ => none
  else none

/-- The remainder returned by `utf8DecodeOne` is a proper suffix. -/
theorem utf8DecodeOne_length {b : Nat} {bs : List Nat} {c : Char} {rest : List Nat}
    (h : utf8DecodeOne b bs = some (c, rest)) : rest.length ≤ bs.length := by
  unfold utf8DecodeOne at h
  split at h
  · cases h; exact Nat.le_refl _
  · split at h
    · cases h
    · split at h
      · split at h
        · split at h
          · cases h; simp
          · cases h
        · cases h
      · split at h
        · split at h
          · split at h
            · split at h
              · cases h; simp; omega
              · cases h
            · cases h
          · cases h
        · split at h
          · split at h
            · split at h
              · split at h
                · cases h; simp; omega
                · cases h
              · cases h
            · cases h
          · cases h

/-- Model of Python `bytes.decode('utf-8')` (strict): returns `none`
exactly where CPython raises `UnicodeDecodeError`. -/
def utf8Decode (l : List Nat) : Option (List Char) :=
  match l with
  | [] => some []
  | b :: bs =>
    match h : utf8DecodeOne b bs with
    | none => none
    | some (c, rest) => (utf8Decode rest).map (fun cs => c :: cs)
termination_by l.length
decreasing_by
  have := utf8DecodeOne_length h
  simp
  omega

/-- Python slice `bs[s:e]`. -/
def byteSlice (bs : List Nat) (s e : Nat) : List Nat :=
  (bs.drop s).take (e - s)

/-- The class attribute `TextToQRCode.MAX_BYTES_PER_QR`: dictionary
lookup by error-correction level; `none` models the `KeyError` raised
on an undefined level. -/
def MAX_BYTES_PER_QR (level : String) : Option Nat :=
  if level = "L" then some 2900
  else if level = "M" then some 2300
  else if level = "Q" then some 1600
  else if level = "H" then some 1200
  else none

/-- Decimal digits of a natural number, as used by Python f-strings. -/
def natChars (n : Nat) : List Char :=
  (Nat.repr n).data

/-- The injected part marker: Python `f"[{i}/{n}]\n"` for a 1-based
index `i` out of `n` parts. -/
def partMark (i n : Nat) : List Char :=
  '[' :: (natChars i ++ '/' :: (natChars n ++ [']', '\n']))

/-- The boundary-adjustment loop of `split_text` (lines 71-81):
`end = min(start + max_bytes, len)` is passed in as the third argument,
then while `end < len` the slice `bytes[start:end]` is test-decoded and
`end` is decremented until the decode succeeds. -/
def adjustEnd (bs : List Nat) (start : Nat) : Nat → Nat
  | 0 => 0
  | e + 1 =>
    if e + 1 < bs.length then
      if (utf8Decode (byteSlice bs start (e + 1))).isSome then e + 1
      else adjustEnd bs start e
    else e + 1

/-- The `for i in range(num_parts)` loop of `split_text` (lines 69-90):
`start` and the 0-based loop index `i` are threaded through, `rem` is the
number of remaining iterations. The decoded slice (line 83) cannot fail
at the accepted boundary, so the model reads it with `getD []`. -/
def splitGo (bs : List Nat) (maxB nParts : Nat) : Nat → Nat → Nat → List (List Char)
  | _, _, 0 => []
  | start, i, rem + 1 =>
    let e := adjustEnd bs start (min (start + maxB) bs.length)
    let partText := (utf8Decode (byteSlice bs start e)).getD []
    let seg := if 1 < nParts then partMark (i + 1) nParts ++ partText else partText
    seg :: splitGo bs maxB nParts e (i + 1) rem

/-- The byte windows `(start, end)` chosen by the loop of `split_text`,
with the same boundary computation as `splitGo`. -/
def splitBounds (bs : List Nat) (maxB : Nat) : Nat → Nat → List (Nat × Nat)
  | _, 0 => []
  | start, rem + 1 =>
    let e := adjustEnd bs start (min (start + maxB) bs.length)
    (start, e) :: splitBounds bs maxB e rem

/-- `TextToQRCode.split_text` (lines 47-92), with the configured
error-correction level passed explicitly. -/
def split_text (level : String) (text : List Char) : Option (List (List Char)) :=
  match MAX_BYTES_PER_QR level with
  | none => none
  | some maxB =>
    let textBytes := utf8Encode text
    if textBytes.length ≤ maxB then some [text]
    else
      let numParts := (textBytes.length + maxB - 1) / maxB
      some (splitGo textBytes maxB numParts 0 0 numParts)

/-- The dictionary returned by `TextToQRCode.get_text_info` (lines 181-187). -/
structure TextInfo where
  char_count : Nat
  byte_count : Nat
  max_bytes_per_qr : Nat
  num_qrcodes : Nat
  error_correction : String
deriving DecidableEq, Repr

/-- `TextToQRCode.get_text_info` (lines 167-187). -/
def get_text_info (level : String) (text : List Char) : Option TextInfo :=
  match MAX_BYTES_PER_QR level with
  | none => none
  | some maxB =>
    let textBytes := utf8Encode text
    some { char_count := text.length
           byte_count := textBytes.length
           max_bytes_per_qr := maxB
           num_qrcodes := (textBytes.length + maxB - 1) / maxB
           error_correction := level }

/-- `TextToQRCode.generate_qrcode_images` (lines 117-136): the external
QR encoder is modelled as carrying its input payload, so each produced
pair is (image payload, text segment). -/
def generate_qrcode_images (level : String) (text : List Char) :
    Option (List (List Char × List Char)) :=
  (split_text level text).map (fun parts => parts.map (fun p => (p, p)))

/-- `TextToQRCode.text_to_qrcode` (lines 138-165): returns the produced
file names (image rendering and saving are external collaborators). -/
def text_to_qrcode (level : String) (text : List Char) (outputPre : List Char) :
    Option (List (List Char)) :=
  (split_text level text).map (fun parts =>
    (List.range parts.length).map (fun i =>
      if 1 < parts.length then
        outputPre ++ "_".data ++ natChars (i + 1) ++ "_of_".data ++
          natChars parts.length ++ ".png".data
      else
        outputPre ++ ".png".data))

/-! ### Facts about the UTF-8 codec -/

/-- Every `Char` holds a valid Unicode scalar value. -/
theorem char_toNat_valid (c : Char) :
    c.toNat < 1114112 ∧ ¬ (55296 ≤ c.toNat ∧ c.toNat ≤ 57343) := by
  have h := c.valid
  unfold Char.toNat
  rcases h with h | ⟨h1, h2⟩ <;> exact ⟨by omega, by omega⟩

/-- `Char.ofNat` round-trips on valid scalar values. -/
theorem toNat_ofNat_valid {n : Nat} (h1 : n < 1114112)
    (h2 : ¬ (55296 ≤ n ∧ n ≤ 57343)) : (Char.ofNat n).toNat = n := by
  have hv : n.isValidChar := by
    unfold Nat.isValidChar
    omega
  rw [Char.ofNat, dif_pos hv]
  rfl

theorem utf8Encode_nil : utf8Encode [] = [] := rfl

theorem utf8Encode_cons (c : Char) (s : List Char) :
    utf8Encode (c :: s) = utf8EncodeChar c ++ utf8Encode s := by
  simp [utf8Encode]

theorem utf8Encode_append (s t : List Char) :
    utf8Encode (s ++ t) = utf8Encode s ++ utf8Encode t := by
  simp [utf8Encode]

theorem utf8EncodeChar_a : utf8EncodeChar 'a' = [97] := by decide

theorem utf8EncodeChar_euro : utf8EncodeChar '€' = [226, 130, 172] := by decide

theorem utf8Encode_replicate_a (n : Nat) :
    utf8Encode (List.replicate n 'a') = List.replicate n 97 := by
  induction n with
  | zero => rfl
  | succ k ih =>
    rw [List.replicate_succ, utf8Encode_cons, ih, utf8EncodeChar_a,
      List.replicate_succ, List.singleton_append]

theorem utf8Decode_nil : utf8Decode [] = some [] := by rw [utf8Decode]

theorem utf8Decode_cons_none {b : Nat} {bs : List Nat} (h : utf8DecodeOne b bs = none) :
    utf8Decode (b :: bs) = none := by
  rw [utf8Decode.eq_def]
  split
  · simp_all
  · rename_i heq
    obtain ⟨rfl, rfl⟩ := heq
    split <;> simp_all

theorem utf8Decode_cons_some {b : Nat} {bs : List Nat} {c : Char} {rest : List Nat}
    (h : utf8DecodeOne b bs = some (c, rest)) :
    utf8Decode (b :: bs) = (utf8Decode rest).map (fun cs => c :: cs) := by
  rw [utf8Decode.eq_def]
  split
  · simp_all
  · rename_i heq
    obtain ⟨rfl, rfl⟩ := heq
    split <;> simp_all

theorem utf8DecodeOne_one {b : Nat} (l : List Nat) (h : b < 128) :
    utf8DecodeOne b l = some (Char.ofNat b, l) := by
  unfold utf8DecodeOne
  rw [if_pos h]

theorem utf8DecodeOne_two {b0 b1 : Nat} (l : List Nat) (h0 : 194 ≤ b0) (h1 : b0 < 224)
    (h2 : 128 ≤ b1) (h3 : b1 < 192) :
    utf8DecodeOne b0 (b1 :: l) = some (Char.ofNat ((b0 - 192) * 64 + (b1 - 128)), l) := by
  unfold utf8DecodeOne
  rw [if_neg (by omega), if_neg (by omega), if_pos h1]
  simp only [if_pos (show (128 ≤ b1 ∧ b1 < 192) from ⟨h2, h3⟩)]

theorem utf8DecodeOne_three {b0 b1 b2 : Nat} (l : List Nat) (h0 : 224 ≤ b0) (h1 : b0 < 240)
    (h2 : 128 ≤ b1) (h3 : b1 < 192) (h4 : 128 ≤ b2) (h5 : b2 < 192)
    (h6 : 2048 ≤ (b0 - 224) * 4096 + (b1 - 128) * 64 + (b2 - 128))
    (h7 : ¬ (55296 ≤ (b0 - 224) * 4096 + (b1 - 128) * 64 + (b2 - 128) ∧
             (b0 - 224) * 4096 + (b1 - 128) * 64 + (b2 - 128) ≤ 57343)) :
    utf8DecodeOne b0 (b1 :: b2 :: l) =
      some (Char.ofNat ((b0 - 224) * 4096 + (b1 - 128) * 64 + (b2 - 128)), l) := by
  unfold utf8DecodeOne
  rw [if_neg (by omega), if_neg (by omega), if_neg (by omega), if_pos h1]
  simp only [if_pos (show ((128 ≤ b1 ∧ b1 < 192) ∧ (128 ≤ b2 ∧ b2 < 192)) from ⟨⟨h2, h3⟩, ⟨h4, h5⟩⟩),
    if_pos (And.intro h6 h7)]

theorem utf8DecodeOne_four {b0 b1 b2 b3 : Nat} (l : List Nat) (h0 : 240 ≤ b0) (h1 : b0 < 245)
    (h2 : 128 ≤ b1) (h3 : b1 < 192) (h4 : 128 ≤ b2) (h5 : b2 < 192) (h6 : 128 ≤ b3) (h7 : b3 < 192)
    (h8 : 65536 ≤ (b0 - 240) * 262144 + (b1 - 128) * 4096 + (b2 - 128) * 64 + (b3 - 128))
    (h9 : (b0 - 240) * 262144 + (b1 - 128) * 4096 + (b2 - 128) * 64 + (b3 - 128) < 1114112) :
    utf8DecodeOne b0 (b1 :: b2 :: b3 :: l) =
      some (Char.ofNat ((b0 - 240) * 262144 + (b1 - 128) * 4096 + (b2 - 128) * 64 + (b3 - 128)), l) := by
  unfold utf8DecodeOne
  rw [if_neg (by omega), if_neg (by omega), if_neg (by omega), if_neg (by omega), if_pos h1]
  simp only [if_pos (show ((128 ≤ b1 ∧ b1 < 192) ∧ (128 ≤ b2 ∧ b2 < 192) ∧ (128 ≤ b3 ∧ b3 < 192)) from
    ⟨⟨h2, h3⟩, ⟨h4, h5⟩, ⟨h6, h7⟩⟩), if_pos (And.intro h8 h9)]

/-- Decoding after a single encoded character peels off exactly that character. -/
theorem utf8Decode_encChar (c : Char) (l : List Nat) :
    utf8Decode (utf8EncodeChar c ++ l) = (utf8Decode l).map (fun cs => c :: cs) := by
  obtain ⟨hlt, hsur⟩ := char_toNat_valid c
  by_cases h1 : c.toNat < 128
  · have he : utf8EncodeChar c = [c.toNat] := by
      unfold utf8EncodeChar
      rw [if_pos h1]
    rw [he, List.singleton_append, utf8Decode_cons_some (utf8DecodeOne_one l h1),
      Char.ofNat_toNat]
  · by_cases h2 : c.toNat < 2048
    · have he : utf8EncodeChar c = [192 + c.toNat / 64, 128 + c.toNat % 64] := by
        unfold utf8EncodeChar
        rw [if_neg h1, if_pos h2]
      have harg : (192 + c.toNat / 64 - 192) * 64 + (128 + c.toNat % 64 - 128) = c.toNat := by
        omega
      rw [he, List.cons_append, List.singleton_append,
        utf8Decode_cons_some (utf8DecodeOne_two l (by omega) (by omega) (by omega) (by omega)),
        harg, Char.ofNat_toNat]
    · by_cases h3 : c.toNat < 65536
      · have he : utf8EncodeChar c =
            [224 + c.toNat / 4096, 128 + c.toNat / 64 % 64, 128 + c.toNat % 64] := by
          unfold utf8EncodeChar
          rw [if_neg h1, if_neg h2, if_pos h3]
        have harg : (224 + c.toNat / 4096 - 224) * 4096 +
            (128 + c.toNat / 64 % 64 - 128) * 64 + (128 + c.toNat % 64 - 128) = c.toNat := by
          omega
        rw [he, List.cons_append, List.cons_append, List.singleton_append,
          utf8Decode_cons_some (utf8DecodeOne_three l (by omega) (by omega) (by omega) (by omega)
            (by omega) (by omega) (by omega) (by omega)),
          harg, Char.ofNat_toNat]
      · have he : utf8EncodeChar c = [240 + c.toNat / 262144, 128 + c.toNat / 4096 % 64,
            128 + c.toNat / 64 % 64, 128 + c.toNat % 64] := by
          unfold utf8EncodeChar
          rw [if_neg h1, if_neg h2, if_neg h3]
        have harg : (240 + c.toNat / 262144 - 240) * 262144 +
            (128 + c.toNat / 4096 % 64 - 128) * 4096 +
            (128 + c.toNat / 64 % 64 - 128) * 64 + (128 + c.toNat % 64 - 128) = c.toNat := by
          omega
        rw [he, List.cons_append, List.cons_append, List.cons_append, List.singleton_append,
          utf8Decode_cons_some (utf8DecodeOne_four l (by omega) (by omega) (by omega) (by omega)
            (by omega) (by omega) (by omega) (by omega) (by omega) (by omega)),
          harg, Char.ofNat_toNat]

/-- Decoding after an encoded string peels off exactly that string. -/
theorem utf8Decode_encode_append (s : List Char) (l : List Nat) :
    utf8Decode (utf8Encode s ++ l) = (utf8Decode l).map (fun cs => s ++ cs) := by
  induction s with
  | nil => simp [utf8Encode_nil]
  | cons c s ih =>
    rw [utf8Encode_cons, List.append_assoc, utf8Decode_encChar, ih, Option.map_map]
    rfl

/-- Encode–decode round trip. -/
theorem utf8Decode_encode (s : List Char) : utf8Decode (utf8Encode s) = some s := by
  have h := utf8Decode_encode_append s []
  simpa [utf8Decode_nil] using h

theorem utf8EncodeChar_ofNat_one {n : Nat} (h : n < 128) :
    utf8EncodeChar (Char.ofNat n) = [n] := by
  have ht : (Char.ofNat n).toNat = n := toNat_ofNat_valid (by omega) (by omega)
  unfold utf8EncodeChar
  rw [ht, if_pos h]

theorem utf8EncodeChar_ofNat_two {n : Nat} (h1 : 128 ≤ n) (h2 : n < 2048) :
    utf8EncodeChar (Char.ofNat n) = [192 + n / 64, 128 + n % 64] := by
  have ht : (Char.ofNat n).toNat = n := toNat_ofNat_valid (by omega) (by omega)
  unfold utf8EncodeChar
  rw [ht, if_neg (by omega), if_pos h2]

theorem utf8EncodeChar_ofNat_three {n : Nat} (h1 : 2048 ≤ n) (h2 : n < 65536)
    (h3 : ¬ (55296 ≤ n ∧ n ≤ 57343)) :
    utf8EncodeChar (Char.ofNat n) = [224 + n / 4096, 128 + n / 64 % 64, 128 + n % 64] := by
  have ht : (Char.ofNat n).toNat = n := toNat_ofNat_valid (by omega) h3
  unfold utf8EncodeChar
  rw [ht, if_neg (by omega), if_neg (by omega), if_pos h2]

theorem utf8EncodeChar_ofNat_four {n : Nat} (h1 : 65536 ≤ n) (h2 : n < 1114112) :
    utf8EncodeChar (Char.ofNat n) =
      [240 + n / 262144, 128 + n / 4096 % 64, 128 + n / 64 % 64, 128 + n % 64] := by
  have ht : (Char.ofNat n).toNat = n := toNat_ofNat_valid h2 (by omega)
  unfold utf8EncodeChar
  rw [ht, if_neg (by omega), if_neg (by omega), if_neg (by omega)]

/-- A successful single-character decode consumes exactly the character's encoding. -/
theorem utf8DecodeOne_encode {b : Nat} {bs : List Nat} {c : Char} {rest : List Nat}
    (h : utf8DecodeOne b bs = some (c, rest)) : b :: bs = utf8EncodeChar c ++ rest := by
  unfold utf8DecodeOne at h
  split at h
  · rename_i hb
    cases h
    rw [utf8EncodeChar_ofNat_one hb]
    rfl
  · split at h
    · cases h
    · split at h
      · split at h
        · split at h
          · rename_i hb1 hb2 hb3 b1 bs1 hcont
            cases h
            rw [utf8EncodeChar_ofNat_two (show 128 ≤ (b - 192) * 64 + (b1 - 128) by omega)
              (show (b - 192) * 64 + (b1 - 128) < 2048 by omega)]
            have e1 : 192 + ((b - 192) * 64 + (b1 - 128)) / 64 = b := by omega
            have e2 : 128 + ((b - 192) * 64 + (b1 - 128)) % 64 = b1 := by omega
            rw [e1, e2]
            rfl
          · cases h
        · cases h
      · split at h
        · split at h
          · split at h
            · split at h
              · rename_i hb1 hb2 hb3 hb4 b1 b2 bs2 hcont hrange
                cases h
                rw [utf8EncodeChar_ofNat_three hrange.1
                  (show (b - 224) * 4096 + (b1 - 128) * 64 + (b2 - 128) < 65536 by omega)
                  hrange.2]
                have e1 : 224 + ((b - 224) * 4096 + (b1 - 128) * 64 + (b2 - 128)) / 4096 = b := by
                  omega
                have e2 : 128 + ((b - 224) * 4096 + (b1 - 128) * 64 + (b2 - 128)) / 64 % 64 = b1 := by
                  omega
                have e3 : 128 + ((b - 224) * 4096 + (b1 - 128) * 64 + (b2 - 128)) % 64 = b2 := by
                  omega
                rw [e1, e2, e3]
                rfl
              · cases h
            · cases h
          · cases h
        · split at h
          · split at h
            · split at h
              · split at h
                · rename_i hb1 hb2 hb3 hb4 hb5 b1 b2 b3 bs3 hcont hrange
                  cases h
                  rw [utf8EncodeChar_ofNat_four hrange.1 hrange.2]
                  have e1 : 240 + ((b - 240) * 262144 + (b1 - 128) * 4096 + (b2 - 128) * 64 +
                      (b3 - 128)) / 262144 = b := by omega
                  have e2 : 128 + ((b - 240) * 262144 + (b1 - 128) * 4096 + (b2 - 128) * 64 +
                      (b3 - 128)) / 4096 % 64 = b1 := by omega
                  have e3 : 128 + ((b - 240) * 262144 + (b1 - 128) * 4096 + (b2 - 128) * 64 +
                      (b3 - 128)) / 64 % 64 = b2 := by omega
                  have e4 : 128 + ((b - 240) * 262144 + (b1 - 128) * 4096 + (b2 - 128) * 64 +
                      (b3 - 128)) % 64 = b3 := by omega
                  rw [e1, e2, e3, e4]
                  rfl
                · cases h
              · cases h
            · cases h
          · cases h

/-- Decode–encode round trip, bounded form used for the strong induction. -/
theorem utf8Encode_of_decode_aux :
    ∀ (n : Nat) (bs : List Nat) (cs : List Char), bs.length ≤ n →
      utf8Decode bs = some cs → utf8Encode cs = bs := by
  intro n
  induction n with
  | zero =>
    intro bs cs hlen h
    cases bs with
    | nil =>
      rw [utf8Decode_nil] at h
      cases h
      rfl
    | cons b bs2 => simp at hlen
  | succ k ih =>
    intro bs cs hlen h
    cases bs with
    | nil =>
      rw [utf8Decode_nil] at h
      cases h
      rfl
    | cons b bs2 =>
      cases h1 : utf8DecodeOne b bs2 with
      | none =>
        rw [utf8Decode_cons_none h1] at h
        cases h
      | some cr =>
        obtain ⟨c, rest⟩ := cr
        rw [utf8Decode_cons_some h1] at h
        obtain ⟨cs2, hrest, hcs⟩ := Option.map_eq_some'.mp h
        subst hcs
        have hr : rest.length ≤ k := by
          have := utf8DecodeOne_length h1
          simp at hlen
          omega
        rw [utf8Encode_cons, ih rest cs2 hr hrest]
        exact (utf8DecodeOne_encode h1).symm

/-- Decode–encode round trip: a decodable byte list is the encoding of
its decoding. -/
theorem utf8Encode_of_decode {bs : List Nat} {cs : List Char}
    (h : utf8Decode bs = some cs) : utf8Encode cs = bs :=
  utf8Encode_of_decode_aux bs.length bs cs (Nat.le_refl _) h

/-- If an encoded string is a byte-level prolongation of another encoded
string, the remainder is itself an encoded string. -/
theorem utf8Encode_cancel {s t : List Char} {r : List Nat}
    (h : utf8Encode s ++ r = utf8Encode t) : ∃ u, t = s ++ u ∧ r = utf8Encode u := by
  have hd : utf8Decode (utf8Encode s ++ r) = some t := by
    rw [h, utf8Decode_encode]
  rw [utf8Decode_encode_append] at hd
  obtain ⟨u, hu, h2⟩ := Option.map_eq_some'.mp hd
  exact ⟨u, h2.symm, (utf8Encode_of_decode hu).symm⟩

/-- Concatenating two decodable byte lists is decodable. -/
theorem utf8Decode_append_some {xs ys : List Nat} {u v : List Char}
    (hx : utf8Decode xs = some u) (hy : utf8Decode ys = some v) :
    utf8Decode (xs ++ ys) = some (u ++ v) := by
  rw [← utf8Encode_of_decode hx, utf8Decode_encode_append, hy]
  rfl

/-- A decodable suffix cut off a decodable whole is decodable. -/
theorem utf8Decode_suffix {xs ys : List Nat} {u w : List Char}
    (hx : utf8Decode xs = some u) (hxy : utf8Decode (xs ++ ys) = some w) :
    ∃ v, utf8Decode ys = some v ∧ w = u ++ v := by
  rw [← utf8Encode_of_decode hx, utf8Decode_encode_append] at hxy
  obtain ⟨v, hv, h2⟩ := Option.map_eq_some'.mp hxy
  exact ⟨v, hv, h2.symm⟩

/-- Decoding a non-empty byte list yields a non-empty string. -/
theorem utf8Decode_cons_ne_nil {b : Nat} {bs : List Nat} {cs : List Char}
    (h : utf8Decode (b :: bs) = some cs) : cs ≠ [] := by
  cases h1 : utf8DecodeOne b bs with
  | none =>
    rw [utf8Decode_cons_none h1] at h
    cases h
  | some cr =>
    obtain ⟨c, rest⟩ := cr
    rw [utf8Decode_cons_some h1] at h
    obtain ⟨cs2, _, hcs⟩ := Option.map_eq_some'.mp h
    subst hcs
    simp

theorem utf8EncodeChar_length_pos (c : Char) : 0 < (utf8EncodeChar c).length := by
  simp only [utf8EncodeChar]
  split
  · simp
  · split
    · simp
    · split <;> simp

theorem utf8EncodeChar_length_le (c : Char) : (utf8EncodeChar c).length ≤ 4 := by
  simp only [utf8EncodeChar]
  split
  · simp
  · split
    · simp
    · split <;> simp

theorem byteSlice_zero_left (bs : List Nat) (e : Nat) : byteSlice bs 0 e = bs.take e := by
  simp [byteSlice]

theorem byteSlice_glue (bs : List Nat) {s e f : Nat} (h1 : s ≤ e) (h2 : e ≤ f) :
    byteSlice bs s e ++ byteSlice bs e f = byteSlice bs s f := by
  unfold byteSlice
  have hd : bs.drop e = (bs.drop s).drop (e - s) := by
    rw [List.drop_drop]
    congr 1
    omega
  rw [hd, ← List.take_add]
  congr 1
  omega

theorem byteSlice_of_length_le (bs : List Nat) {s e : Nat} (h : bs.length ≤ e) :
    byteSlice bs s e = bs.drop s := by
  unfold byteSlice
  apply List.take_of_length_le
  simp
  omega

theorem byteSlice_length (bs : List Nat) (s e : Nat) :
    (byteSlice bs s e).length = min (e - s) (bs.length - s) := by
  simp [byteSlice]

theorem adjustEnd_le (bs : List Nat) (start : Nat) : ∀ e, adjustEnd bs start e ≤ e := by
  intro e
  induction e with
  | zero => exact Nat.le_refl 0
  | succ k ih =>
    simp only [adjustEnd]
    split
    · split
      · exact Nat.le_refl _
      · exact Nat.le_trans ih (Nat.le_succ k)
    · exact Nat.le_refl _

theorem adjustEnd_ge {bs : List Nat} {start v : Nat}
    (hdec : (utf8Decode (byteSlice bs start v)).isSome) :
    ∀ e, v ≤ e → v ≤ adjustEnd bs start e := by
  intro e
  induction e with
  | zero => intro hv; simpa [adjustEnd] using hv
  | succ k ih =>
    intro hv
    simp only [adjustEnd]
    split
    · split
      · exact hv
      · rename_i hlen hfail
        apply ih
        rcases Nat.lt_or_ge v (k + 1) with h | h
        · omega
        · have hveq : v = k + 1 := by omega
          subst hveq
          exact absurd hdec hfail
    · exact hv

theorem adjustEnd_spec (bs : List Nat) (start : Nat) : ∀ e,
    (utf8Decode (byteSlice bs start (adjustEnd bs start e))).isSome ∨
      (adjustEnd bs start e = e ∧ bs.length ≤ e) := by
  intro e
  induction e with
  | zero =>
    left
    have h0 : adjustEnd bs start 0 = 0 := rfl
    rw [h0]
    have hsl : byteSlice bs start 0 = [] := by
      unfold byteSlice
      simp
    rw [hsl, utf8Decode_nil]
    rfl
  | succ k ih =>
    simp only [adjustEnd]
    split
    · rename_i hlen
      split
      · left; assumption
      · rcases ih with h | ⟨heq, hlen2⟩
        · left; exact h
        · omega
    · rename_i hlen
      right
      exact ⟨rfl, by omega⟩

theorem ceilDiv_one {len b : Nat} (hb : 0 < b) (h1 : 1 ≤ len) (h2 : len ≤ b) :
    (len + b - 1) / b = 1 := by
  have hlo : 1 ≤ (len + b - 1) / b := (Nat.le_div_iff_mul_le hb).mpr (by omega)
  have hhi : (len + b - 1) / b < 2 := (Nat.div_lt_iff_lt_mul hb).mpr (by omega)
  omega

theorem ceilDiv_two_le {len b : Nat} (hb : 0 < b) (h : b < len) :
    2 ≤ (len + b - 1) / b := by
  exact (Nat.le_div_iff_mul_le hb).mpr (by omega)

theorem ceilDiv_pred_mul_lt {len b : Nat} (hb : 0 < b) (h1 : 1 ≤ len) :
    ((len + b - 1) / b - 1) * b < len := by
  have h2 : (len + b - 1) / b * b ≤ len + b - 1 := Nat.div_mul_le_self _ _
  rw [Nat.sub_mul, Nat.one_mul]
  omega

theorem ceilDiv_mul_ge {len b : Nat} (hb : 0 < b) : len ≤ (len + b - 1) / b * b := by
  rcases Nat.eq_zero_or_pos len with h | h
  · omega
  · have h2 : len + b - 1 < ((len + b - 1) / b + 1) * b :=
      (Nat.div_lt_iff_lt_mul hb).mp (Nat.lt_succ_self _)
    rw [Nat.succ_mul] at h2
    omega

theorem splitGo_length (bs : List Nat) (maxB nParts : Nat) (rem i start : Nat) :
    (splitGo bs maxB nParts start i rem).length = rem := by
  induction rem generalizing i start with
  | zero => rfl
  | succ r ih => simp only [splitGo, List.length_cons, ih]

theorem splitBounds_length (bs : List Nat) (maxB : Nat) (rem start : Nat) :
    (splitBounds bs maxB start rem).length = rem := by
  induction rem generalizing start with
  | zero => rfl
  | succ r ih => simp only [splitBounds, List.length_cons, ih]

/-- Core invariant of the splitting loop: starting from a boundary `start`
that ends a decodable prefix and is within budget-many bytes per completed
iteration, every produced segment is the marker (when more than one part)
followed by a non-empty payload that re-encodes to at most `maxB` bytes,
and every chosen byte window is non-empty and decodable. -/
theorem splitGo_invariant (t : List Char) (maxB nParts : Nat) (hmaxB : 4 ≤ maxB)
    (hlast : (nParts - 1) * maxB < (utf8Encode t).length) :
    ∀ (rem i start : Nat) (pre : List Char), i + rem = nParts → start ≤ i * maxB →
      utf8Decode ((utf8Encode t).take start) = some pre →
      ((∀ j, j < rem →
        ∃ payload, payload ≠ [] ∧ (utf8Encode payload).length ≤ maxB ∧
          (splitGo (utf8Encode t) maxB nParts start i rem)[j]? =
            some ((if 1 < nParts then partMark (i + j + 1) nParts else []) ++ payload)) ∧
      (∀ w ∈ splitBounds (utf8Encode t) maxB start rem,
        w.1 < w.2 ∧ (utf8Decode (byteSlice (utf8Encode t) w.1 w.2)).isSome)) := by
  intro rem
  induction rem with
  | zero =>
    intro i start pre hi hstart hpre
    constructor
    · intro j hj
      omega
    · intro w hw
      simp [splitBounds] at hw
  | succ r ih =>
    intro i start pre hi hstart hpre
    -- abbreviations
    have hL : (nParts - 1) * maxB < (utf8Encode t).length := hlast
    have hi1 : i ≤ nParts - 1 := by omega
    have hstart_lt : start < (utf8Encode t).length := by
      have h1 : i * maxB ≤ (nParts - 1) * maxB := Nat.mul_le_mul_right maxB hi1
      omega
    -- the remaining bytes decode
    have hsplit : (utf8Encode t).take start ++ (utf8Encode t).drop start = utf8Encode t :=
      List.take_append_drop _ _
    have hwhole : utf8Decode (utf8Encode t) = some t := utf8Decode_encode t
    have hdropdec : ∃ v, utf8Decode ((utf8Encode t).drop start) = some v := by
      have h2 : utf8Decode ((utf8Encode t).take start ++ (utf8Encode t).drop start) = some t := by
        rw [hsplit]
        exact hwhole
      obtain ⟨v, hv, _⟩ := utf8Decode_suffix hpre h2
      exact ⟨v, hv⟩
    obtain ⟨v, hv⟩ := hdropdec
    -- the remaining bytes are non-empty, so v is a cons
    have hdrop_ne : (utf8Encode t).drop start ≠ [] := by
      intro hnil
      have h3 : ((utf8Encode t).drop start).length = 0 := by rw [hnil]; rfl
      simp at h3
      omega
    have hv_ne : v ≠ [] := by
      cases hd : (utf8Encode t).drop start with
      | nil => exact absurd hd hdrop_ne
      | cons b bsr =>
        rw [hd] at hv
        exact utf8Decode_cons_ne_nil hv
    obtain ⟨c, v', rfl⟩ : ∃ c v', v = c :: v' := by
      cases v with
      | nil => exact absurd rfl hv_ne
      | cons c v' => exact ⟨c, v', rfl⟩
    have hdrop_eq : (utf8Encode t).drop start = utf8EncodeChar c ++ utf8Encode v' := by
      have h4 := utf8Encode_of_decode hv
      rw [← h4, utf8Encode_cons]
    -- the cut just after the first character is decodable and within the window
    have hcl_pos : 0 < (utf8EncodeChar c).length := utf8EncodeChar_length_pos c
    have hcl_le : (utf8EncodeChar c).length ≤ 4 := utf8EncodeChar_length_le c
    have hcl_lenle : start + (utf8EncodeChar c).length ≤ (utf8Encode t).length := by
      have h5 : ((utf8Encode t).drop start).length = (utf8Encode t).length - start := by simp
      rw [hdrop_eq] at h5
      simp at h5
      omega
    have hcut_slice : byteSlice (utf8Encode t) start (start + (utf8EncodeChar c).length) =
        utf8EncodeChar c := by
      unfold byteSlice
      rw [hdrop_eq]
      have h6 : start + (utf8EncodeChar c).length - start = (utf8EncodeChar c).length := by omega
      rw [h6]
      exact List.take_left _ _
    have hcut_dec : (utf8Decode (byteSlice (utf8Encode t) start
        (start + (utf8EncodeChar c).length))).isSome := by
      rw [hcut_slice]
      have h7 : utf8Decode (utf8EncodeChar c) = some [c] := by
        have h8 := utf8Decode_encChar c []
        rw [List.append_nil] at h8
        rw [h8, utf8Decode_nil]
        rfl
      rw [h7]
      rfl
    have hcut_le : start + (utf8EncodeChar c).length ≤
        min (start + maxB) (utf8Encode t).length :=
      Nat.le_min.mpr ⟨by omega, hcl_lenle⟩
    -- facts about the adjusted end
    have he_le : adjustEnd (utf8Encode t) start (min (start + maxB) (utf8Encode t).length) ≤
        min (start + maxB) (utf8Encode t).length := adjustEnd_le _ _ _
    have he_ge : start + (utf8EncodeChar c).length ≤
        adjustEnd (utf8Encode t) start (min (start + maxB) (utf8Encode t).length) :=
      adjustEnd_ge hcut_dec _ hcut_le
    have hwin : (utf8Decode (byteSlice (utf8Encode t) start
        (adjustEnd (utf8Encode t) start (min (start + maxB) (utf8Encode t).length)))).isSome := by
      rcases adjustEnd_spec (utf8Encode t) start (min (start + maxB) (utf8Encode t).length) with
        h | ⟨heq, hge⟩
      · exact h
      · rw [heq]
        have h9 : min (start + maxB) (utf8Encode t).length = (utf8Encode t).length := by omega
        rw [h9, byteSlice_of_length_le _ (Nat.le_refl _), hv]
        rfl
    obtain ⟨w, hw⟩ : ∃ w, utf8Decode (byteSlice (utf8Encode t) start
        (adjustEnd (utf8Encode t) start (min (start + maxB) (utf8Encode t).length))) = some w := by
      cases hx : utf8Decode (byteSlice (utf8Encode t) start
          (adjustEnd (utf8Encode t) start (min (start + maxB) (utf8Encode t).length))) with
      | none => rw [hx] at hwin; cases hwin
      | some w => exact ⟨w, rfl⟩
    -- the window payload is non-empty
    have hwlen : (byteSlice (utf8Encode t) start
        (adjustEnd (utf8Encode t) start (min (start + maxB) (utf8Encode t).length))).length =
        min (adjustEnd (utf8Encode t) start (min (start + maxB) (utf8Encode t).length) - start)
          ((utf8Encode t).length - start) := byteSlice_length _ _ _
    have hw_ne : w ≠ [] := by
      cases hsl : byteSlice (utf8Encode t) start
          (adjustEnd (utf8Encode t) start (min (start + maxB) (utf8Encode t).length)) with
      | nil =>
        rw [hsl] at hwlen
        simp at hwlen
        omega
      | cons b bsr =>
        rw [hsl] at hw
        exact utf8Decode_cons_ne_nil hw
    -- the payload re-encodes within budget
    have hw_enc : utf8Encode w = byteSlice (utf8Encode t) start
        (adjustEnd (utf8Encode t) start (min (start + maxB) (utf8Encode t).length)) :=
      utf8Encode_of_decode hw
    have hw_budget : (utf8Encode w).length ≤ maxB := by
      rw [hw_enc, hwlen]
      omega
    -- the new boundary still ends a decodable prefix
    have hpre2 : utf8Decode ((utf8Encode t).take
        (adjustEnd (utf8Encode t) start (min (start + maxB) (utf8Encode t).length))) =
        some (pre ++ w) := by
      have hglue : byteSlice (utf8Encode t) 0 start ++ byteSlice (utf8Encode t) start
          (adjustEnd (utf8Encode t) start (min (start + maxB) (utf8Encode t).length)) =
          byteSlice (utf8Encode t) 0
            (adjustEnd (utf8Encode t) start (min (start + maxB) (utf8Encode t).length)) :=
        byteSlice_glue _ (by omega) (by omega)
      rw [byteSlice_zero_left, byteSlice_zero_left] at hglue
      rw [← hglue]
      exact utf8Decode_append_some hpre hw
    have hnext_start : adjustEnd (utf8Encode t) start (min (start + maxB) (utf8Encode t).length) ≤
        (i + 1) * maxB := by
      have h10 : adjustEnd (utf8Encode t) start (min (start + maxB) (utf8Encode t).length) ≤
          start + maxB := by omega
      have h11 : (i + 1) * maxB = i * maxB + maxB := Nat.succ_mul i maxB
      omega
    have hihres := ih (i + 1)
      (adjustEnd (utf8Encode t) start (min (start + maxB) (utf8Encode t).length)) (pre ++ w)
      (by omega) hnext_start hpre2
    constructor
    · intro j hj
      cases j with
      | zero =>
        refine ⟨w, hw_ne, hw_budget, ?_⟩
        simp only [splitGo, hw, Option.getD_some, List.getElem?_cons_zero]
        split
        · rfl
        · rfl
      | succ j' =>
        obtain ⟨payload, hp1, hp2, hp3⟩ := hihres.1 j' (by omega)
        refine ⟨payload, hp1, hp2, ?_⟩
        simp only [splitGo, List.getElem?_cons_succ]
        rw [hp3]
        have h12 : i + 1 + j' + 1 = i + (j' + 1) + 1 := by omega
        rw [h12]
    · intro wb hwb
      simp only [splitBounds] at hwb
      cases hwb with
      | head =>
        constructor
        · show start < adjustEnd (utf8Encode t) start (min (start + maxB) (utf8Encode t).length)
          omega
        · exact hwin
      | tail _ hwb2 =>
        exact hihres.2 wb hwb2

theorem utf8Decode_replicate_a (n : Nat) :
    utf8Decode (List.replicate n 97) = some (List.replicate n 'a') := by
  rw [← utf8Encode_replicate_a, utf8Decode_encode]

theorem utf8Decode_replicate_a_append (n : Nat) (l : List Nat) :
    utf8Decode (List.replicate n 97 ++ l) =
      (utf8Decode l).map (fun cs => List.replicate n 'a' ++ cs) := by
  rw [← utf8Encode_replicate_a, utf8Decode_encode_append]

theorem utf8Decode_euro_cons (l : List Nat) :
    utf8Decode (226 :: 130 :: 172 :: l) = (utf8Decode l).map (fun cs => '€' :: cs) := by
  have h2 := @utf8DecodeOne_three 226 130 172 l
    (by omega) (by omega) (by omega) (by omega) (by omega) (by omega) (by omega) (by omega)
  have h1 : utf8DecodeOne 226 (130 :: 172 :: l) = some ('€', l) := by
    rw [h2]
  rw [utf8Decode_cons_some h1]

theorem adjustEnd_id {bs : List Nat} {start e : Nat}
    (h : (utf8Decode (byteSlice bs start e)).isSome) : adjustEnd bs start e = e := by
  cases e with
  | zero => rfl
  | succ k =>
    simp only [adjustEnd, h, if_true]
    split <;> rfl

theorem adjustEnd_ge_len {bs : List Nat} {start e : Nat} (h : bs.length ≤ e) :
    adjustEnd bs start e = e := by
  cases e with
  | zero => rfl
  | succ k =>
    simp only [adjustEnd]
    rw [if_neg (by omega)]

theorem adjustEnd_fail_step {bs : List Nat} {start e : Nat}
    (hfail : ¬ (utf8Decode (byteSlice bs start (e + 1))).isSome = true)
    (hlt : e + 1 < bs.length) :
    adjustEnd bs start (e + 1) = adjustEnd bs start e := by
  simp only [adjustEnd]
  rw [if_pos hlt, if_neg hfail]

theorem splitGo_cons_eq {bs : List Nat} {maxB nParts start i rem e : Nat} {w seg : List Char}
    (he : adjustEnd bs start (min (start + maxB) bs.length) = e)
    (hw : utf8Decode (byteSlice bs start e) = some w)
    (hseg : (if 1 < nParts then partMark (i + 1) nParts ++ w else w) = seg) :
    splitGo bs maxB nParts start i (rem + 1) = seg :: splitGo bs maxB nParts e (i + 1) rem := by
  simp only [splitGo, he, hw, Option.getD_some, hseg]

theorem splitGo_zero_eq (bs : List Nat) (maxB nParts start i : Nat) :
    splitGo bs maxB nParts start i 0 = [] := rfl

theorem split_text_of_gt {level : String} {b : Nat} {text : List Char}
    (hM : MAX_BYTES_PER_QR level = some b) (h : ¬ ((utf8Encode text).length ≤ b)) :
    split_text level text =
      some (splitGo (utf8Encode text) b (((utf8Encode text).length + b - 1) / b) 0 0
        (((utf8Encode text).length + b - 1) / b)) := by
  simp only [split_text, hM, if_neg h]

theorem split_text_of_le {level : String} {b : Nat} {text : List Char}
    (hM : MAX_BYTES_PER_QR level = some b) (h : (utf8Encode text).length ≤ b) :
    split_text level text = some [text] := by
  simp only [split_text, hM, if_pos h]

theorem split_text_of_none {level : String} (text : List Char)
    (hM : MAX_BYTES_PER_QR level = none) : split_text level text = none := by
  simp only [split_text, hM]

/-- Concrete run: 1201 ASCII bytes at level `H` (budget 1200). -/
theorem split_text_H_1201 :
    split_text "H" (List.replicate 1201 'a') =
      some [partMark 1 2 ++ List.replicate 1200 'a', partMark 2 2 ++ ['a']] := by
  have hM : MAX_BYTES_PER_QR "H" = some 1200 := by decide
  have hlen : (utf8Encode (List.replicate 1201 'a')).length = 1201 := by
    rw [utf8Encode_replicate_a]
    simp
  have h0 := @split_text_of_gt "H" 1200 (List.replicate 1201 'a') hM (by omega)
  rw [hlen] at h0
  rw [h0, utf8Encode_replicate_a]
  norm_num
  have hbs : (List.replicate 1201 (97 : Nat)).length = 1201 := by simp
  have hsl1 : byteSlice (List.replicate 1201 (97 : Nat)) 0 1200 = List.replicate 1200 97 := by
    rw [byteSlice_zero_left, List.take_replicate]
    norm_num
  have hw1 : utf8Decode (byteSlice (List.replicate 1201 (97 : Nat)) 0 1200) =
      some (List.replicate 1200 'a') := by
    rw [hsl1, utf8Decode_replicate_a]
  have he1 : adjustEnd (List.replicate 1201 (97 : Nat)) 0
      (min (0 + 1200) (List.replicate 1201 (97 : Nat)).length) = 1200 := by
    rw [hbs]
    norm_num
    exact adjustEnd_id (by rw [hw1]; rfl)
  have hstep1 : splitGo (List.replicate 1201 (97 : Nat)) 1200 2 0 0 2 =
      (partMark 1 2 ++ List.replicate 1200 'a') ::
        splitGo (List.replicate 1201 (97 : Nat)) 1200 2 1200 1 1 :=
    splitGo_cons_eq he1 hw1 (by norm_num)
  have hsl2 : byteSlice (List.replicate 1201 (97 : Nat)) 1200 1201 = [97] := by
    unfold byteSlice
    rw [List.drop_replicate, List.take_replicate]
    norm_num
  have hw2 : utf8Decode (byteSlice (List.replicate 1201 (97 : Nat)) 1200 1201) =
      some ['a'] := by
    rw [hsl2]
    have h3 := utf8Decode_replicate_a 1
    simpa using h3
  have he2 : adjustEnd (List.replicate 1201 (97 : Nat)) 1200
      (min (1200 + 1200) (List.replicate 1201 (97 : Nat)).length) = 1201 := by
    rw [hbs]
    norm_num
    exact adjustEnd_ge_len (by simp)
  have hstep2 : splitGo (List.replicate 1201 (97 : Nat)) 1200 2 1200 1 1 =
      (partMark 2 2 ++ ['a']) :: splitGo (List.replicate 1201 (97 : Nat)) 1200 2 1201 2 0 :=
    splitGo_cons_eq he2 hw2 (by norm_num)
  rw [hstep1, hstep2, splitGo_zero_eq]

/-- The input exhibiting the data-loss defect of `split_text`: 2400 UTF-8
bytes at level `H`, with a multi-byte character straddling byte 1200. -/
def c1Text : List Char := List.replicate 1199 'a' ++ '€' :: List.replicate 1198 'a'

theorem c1Text_bytes : utf8Encode c1Text =
    List.replicate 1199 97 ++ 226 :: 130 :: 172 :: List.replicate 1198 97 := by
  unfold c1Text
  rw [utf8Encode_append, utf8Encode_replicate_a, utf8Encode_cons, utf8EncodeChar_euro,
    utf8Encode_replicate_a]
  simp only [List.cons_append, List.nil_append]

/-- Concrete run of `split_text` on `c1Text` at level `H`: the second window
stops at byte 2399, dropping the final byte. -/
theorem split_text_H_c1Text :
    split_text "H" c1Text =
      some [partMark 1 2 ++ List.replicate 1199 'a',
            partMark 2 2 ++ '€' :: List.replicate 1197 'a'] := by
  have hM : MAX_BYTES_PER_QR "H" = some 1200 := by decide
  have hlen : (utf8Encode c1Text).length = 2400 := by
    rw [c1Text_bytes]
    simp
  have h0 := @split_text_of_gt "H" 1200 c1Text hM (by omega)
  rw [hlen] at h0
  rw [h0, c1Text_bytes]
  norm_num
  have hBlen : (List.replicate 1199 (97 : Nat) ++ 226 :: 130 :: 172 ::
      List.replicate 1198 (97 : Nat)).length = 2400 := by simp
  -- window 1: test decode at byte 1200 fails, boundary retreats to 1199
  have hsl1200 : byteSlice (List.replicate 1199 (97 : Nat) ++ 226 :: 130 :: 172 ::
      List.replicate 1198 (97 : Nat)) 0 1200 = List.replicate 1199 97 ++ [226] := by
    rw [byteSlice_zero_left, List.take_append_eq_append_take,
      List.take_of_length_le (by simp)]
    norm_num
  have hd226 : utf8DecodeOne 226 ([] : List Nat) = none := by decide
  have hfail1 : ¬ (utf8Decode (byteSlice (List.replicate 1199 (97 : Nat) ++ 226 :: 130 :: 172 ::
      List.replicate 1198 (97 : Nat)) 0 1200)).isSome = true := by
    rw [hsl1200, utf8Decode_replicate_a_append, utf8Decode_cons_none hd226]
    simp
  have hsl1199 : byteSlice (List.replicate 1199 (97 : Nat) ++ 226 :: 130 :: 172 ::
      List.replicate 1198 (97 : Nat)) 0 1199 = List.replicate 1199 97 := by
    rw [byteSlice_zero_left, List.take_append_eq_append_take,
      List.take_of_length_le (by simp)]
    norm_num
  have hw1 : utf8Decode (byteSlice (List.replicate 1199 (97 : Nat) ++ 226 :: 130 :: 172 ::
      List.replicate 1198 (97 : Nat)) 0 1199) = some (List.replicate 1199 'a') := by
    rw [hsl1199, utf8Decode_replicate_a]
  have hfs : adjustEnd (List.replicate 1199 (97 : Nat) ++ 226 :: 130 :: 172 ::
      List.replicate 1198 (97 : Nat)) 0 1200 = adjustEnd (List.replicate 1199 (97 : Nat) ++
      226 :: 130 :: 172 :: List.replicate 1198 (97 : Nat)) 0 1199 :=
    adjustEnd_fail_step hfail1 (by rw [hBlen]; omega)
  have he1 : adjustEnd (List.replicate 1199 (97 : Nat) ++ 226 :: 130 :: 172 ::
      List.replicate 1198 (97 : Nat)) 0
      (min (0 + 1200) (List.replicate 1199 (97 : Nat) ++ 226 :: 130 :: 172 ::
        List.replicate 1198 (97 : Nat)).length) = 1199 := by
    rw [hBlen]
    norm_num
    rw [hfs]
    exact adjustEnd_id (by rw [hw1]; rfl)
  have hstep1 : splitGo (List.replicate 1199 (97 : Nat) ++ 226 :: 130 :: 172 ::
      List.replicate 1198 (97 : Nat)) 1200 2 0 0 2 =
      (partMark 1 2 ++ List.replicate 1199 'a') ::
        splitGo (List.replicate 1199 (97 : Nat) ++ 226 :: 130 :: 172 ::
          List.replicate 1198 (97 : Nat)) 1200 2 1199 1 1 :=
    splitGo_cons_eq he1 hw1 (by norm_num)
  -- window 2: bytes 1199..2399, decodable, so 2399 is accepted although 2399 < 2400
  have hdrop : (List.replicate 1199 (97 : Nat) ++ 226 :: 130 :: 172 ::
      List.replicate 1198 (97 : Nat)).drop 1199 = 226 :: 130 :: 172 ::
      List.replicate 1198 (97 : Nat) := by
    rw [List.drop_append_eq_append_drop]
    simp
  have hsl2 : byteSlice (List.replicate 1199 (97 : Nat) ++ 226 :: 130 :: 172 ::
      List.replicate 1198 (97 : Nat)) 1199 2399 = 226 :: 130 :: 172 ::
      List.replicate 1197 97 := by
    unfold byteSlice
    rw [hdrop]
    have hsplit4 : (226 :: 130 :: 172 :: List.replicate 1198 (97 : Nat)) =
        [226, 130, 172] ++ List.replicate 1198 (97 : Nat) := rfl
    rw [hsplit4, List.take_append_eq_append_take, List.take_of_length_le (by simp)]
    norm_num
  have hw2 : utf8Decode (byteSlice (List.replicate 1199 (97 : Nat) ++ 226 :: 130 :: 172 ::
      List.replicate 1198 (97 : Nat)) 1199 2399) = some ('€' :: List.replicate 1197 'a') := by
    rw [hsl2, utf8Decode_euro_cons, utf8Decode_replicate_a]
    rfl
  have he2 : adjustEnd (List.replicate 1199 (97 : Nat) ++ 226 :: 130 :: 172 ::
      List.replicate 1198 (97 : Nat)) 1199
      (min (1199 + 1200) (List.replicate 1199 (97 : Nat) ++ 226 :: 130 :: 172 ::
        List.replicate 1198 (97 : Nat)).length) = 2399 := by
    rw [hBlen]
    norm_num
    exact adjustEnd_id (by rw [hw2]; rfl)
  have hstep2 : splitGo (List.replicate 1199 (97 : Nat) ++ 226 :: 130 :: 172 ::
      List.replicate 1198 (97 : Nat)) 1200 2 1199 1 1 =
      (partMark 2 2 ++ '€' :: List.replicate 1197 'a') ::
        splitGo (List.replicate 1199 (97 : Nat) ++ 226 :: 130 :: 172 ::
          List.replicate 1198 (97 : Nat)) 1200 2 2399 2 0 :=
    splitGo_cons_eq he2 hw2 (by norm_num)
  rw [hstep1, hstep2, splitGo_zero_eq]

theorem get_text_info_of_some {level : String} {b : Nat} (text : List Char)
    (hM : MAX_BYTES_PER_QR level = some b) :
    get_text_info level text = some ⟨text.length, (utf8Encode text).length, b,
      ((utf8Encode text).length + b - 1) / b, level⟩ := by
  simp only [get_text_info, hM]

theorem get_text_info_of_none {level : String} (text : List Char)
    (hM : MAX_BYTES_PER_QR level = none) : get_text_info level text = none := by
  simp only [get_text_info, hM]

theorem MAX_BYTES_cases {level : String} {b : Nat} (h : MAX_BYTES_PER_QR level = some b) :
    (level = "L" ∧ b = 2900) ∨ (level = "M" ∧ b = 2300) ∨
    (level = "Q" ∧ b = 1600) ∨ (level = "H" ∧ b = 1200) := by
  unfold MAX_BYTES_PER_QR at h
  split at h
  · cases h
    left
    exact ⟨by assumption, rfl⟩
  · split at h
    · cases h
      right
      left
      exact ⟨by assumption, rfl⟩
    · split at h
      · cases h
        right
        right
        left
        exact ⟨by assumption, rfl⟩
      · split at h
        · cases h
          right
          right
          right
          exact ⟨by assumption, rfl⟩
        · cases h

theorem MAX_BYTES_ge_four {level : String} {b : Nat} (h : MAX_BYTES_PER_QR level = some b) :
    4 ≤ b := by
  rcases MAX_BYTES_cases h with ⟨_, rfl⟩ | ⟨_, rfl⟩ | ⟨_, rfl⟩ | ⟨_, rfl⟩ <;> omega

theorem utf8Encode_length_pos {text : List Char} (h : text ≠ []) :
    0 < (utf8Encode text).length := by
  cases text with
  | nil => exact absurd rfl h
  | cons c s =>
    rw [utf8Encode_cons]
    have := utf8EncodeChar_length_pos c
    simp
    omega

theorem split_text_isSome {level : String} {b : Nat} (text : List Char)
    (hM : MAX_BYTES_PER_QR level = some b) : ∃ parts, split_text level text = some parts := by
  by_cases hle : (utf8Encode text).length ≤ b
  · exact ⟨[text], split_text_of_le hM hle⟩
  · exact ⟨_, split_text_of_gt hM hle⟩



/-- C4: for every text whose UTF-8 byte length is at most the capacity budget
of the configured error-correction level, `split_text` returns exactly one
segment that is the original text verbatim, with no part marker added. -/
theorem claim_C4_single_segment (level : String) (b : Nat) (text : List Char)
    (hM : MAX_BYTES_PER_QR level = some b) (hle : (utf8Encode text).length ≤ b) :
    split_text level text = some [text] :=
  split_text_of_le hM hle

/-- Witness for C4 at level `M` and the two-byte text `"Hi"`. -/
theorem claim_C4_single_segment_witness :
    MAX_BYTES_PER_QR "M" = some 2300 ∧ (utf8Encode ("Hi".data)).length ≤ 2300 ∧
      split_text "M" ("Hi".data) = some ["Hi".data] :=
  ⟨by decide, by decide, claim_C4_single_segment "M" 2300 ("Hi".data) (by decide) (by decide)⟩

/-- C8: for a level outside L, M, Q, H the capacity lookup fails and both
`split_text` and `get_text_info` produce no result; every level inside the
set maps to its fixed budget. -/
theorem claim_C8_capacity_lookup (level : String) (text : List Char)
    (h : level ≠ "L" ∧ level ≠ "M" ∧ level ≠ "Q" ∧ level ≠ "H") :
    MAX_BYTES_PER_QR level = none ∧ split_text level text = none ∧
      get_text_info level text = none ∧
      MAX_BYTES_PER_QR "L" = some 2900 ∧ MAX_BYTES_PER_QR "M" = some 2300 ∧
      MAX_BYTES_PER_QR "Q" = some 1600 ∧ MAX_BYTES_PER_QR "H" = some 1200 := by
  have hn : MAX_BYTES_PER_QR level = none := by
    unfold MAX_BYTES_PER_QR
    rw [if_neg h.1, if_neg h.2.1, if_neg h.2.2.1, if_neg h.2.2.2]
  exact ⟨hn, split_text_of_none text hn, get_text_info_of_none text hn,
    by decide, by decide, by decide, by decide⟩

/-- Witness for C8 at the undefined level `"X"`. -/
theorem claim_C8_capacity_lookup_witness :
    MAX_BYTES_PER_QR "X" = none ∧ split_text "X" ['a'] = none ∧
      get_text_info "X" ['a'] = none ∧
      MAX_BYTES_PER_QR "L" = some 2900 ∧ MAX_BYTES_PER_QR "M" = some 2300 ∧
      MAX_BYTES_PER_QR "Q" = some 1600 ∧ MAX_BYTES_PER_QR "H" = some 1200 :=
  claim_C8_capacity_lookup "X" ['a'] ⟨by decide, by decide, by decide, by decide⟩

/-- C7: `get_text_info` reports the character count, the UTF-8 byte count,
the static budget of the level, and the ceiling of bytes over budget; in
particular `"Hello, World!"` at level `M` gives 13, 13, 2300 and 1. -/
theorem claim_C7_text_info (level : String) (b : Nat) (text : List Char)
    (hM : MAX_BYTES_PER_QR level = some b) :
    get_text_info level text = some ⟨text.length, (utf8Encode text).length, b,
      ((utf8Encode text).length + b - 1) / b, level⟩ ∧
    get_text_info "M" ("Hello, World!".data) = some ⟨13, 13, 2300, 1, "M"⟩ :=
  ⟨get_text_info_of_some text hM, by decide⟩

/-- Witness for C7 at level `M` and `"Hello, World!"`. -/
theorem claim_C7_text_info_witness :
    get_text_info "M" ("Hello, World!".data) =
      some ⟨("Hello, World!".data).length, (utf8Encode ("Hello, World!".data)).length, 2300,
        ((utf8Encode ("Hello, World!".data)).length + 2300 - 1) / 2300, "M"⟩ ∧
    get_text_info "M" ("Hello, World!".data) = some ⟨13, 13, 2300, 1, "M"⟩ :=
  claim_C7_text_info "M" 2300 ("Hello, World!".data) (by decide)

/-- C10: on the empty string, `split_text` returns one empty segment while
`get_text_info` reports zero needed QR codes. -/
theorem claim_C10_empty (level : String) (b : Nat) (hM : MAX_BYTES_PER_QR level = some b) :
    split_text level [] = some [[]] ∧
      (get_text_info level []).map TextInfo.num_qrcodes = some 0 := by
  have hb : 4 ≤ b := MAX_BYTES_ge_four hM
  constructor
  · exact split_text_of_le hM (by simp [utf8Encode_nil])
  · rw [get_text_info_of_some [] hM]
    have h0 : (utf8Encode []).length = 0 := rfl
    simp [h0]
    exact Nat.div_eq_of_lt (by omega)

/-- Witness for C10 at level `M`. -/
theorem claim_C10_empty_witness :
    split_text "M" [] = some [[]] ∧
      (get_text_info "M" []).map TextInfo.num_qrcodes = some 0 :=
  claim_C10_empty "M" 2300 (by decide)

/-- C5 fails on the empty string: `get_text_info` reports zero codes while
`generate_qrcode_images` produces one image. -/
theorem claim_C5_count_match_cex :
    (get_text_info "M" []).map TextInfo.num_qrcodes = some 0 ∧
      (generate_qrcode_images "M" []).map List.length = some 1 := by
  constructor
  · decide
  · decide

/-- C5 amended: for every non-empty text, the `num_qrcodes` of
`get_text_info` equals the segment count of `split_text`, which equals the
image count of `generate_qrcode_images`. -/
theorem claim_C5_count_match_amended (level : String) (b : Nat) (text : List Char)
    (hM : MAX_BYTES_PER_QR level = some b) (hne : text ≠ []) :
    (get_text_info level text).map TextInfo.num_qrcodes =
      (split_text level text).map List.length ∧
    (generate_qrcode_images level text).map List.length =
      (split_text level text).map List.length := by
  have hb : 4 ≤ b := MAX_BYTES_ge_four hM
  have hpos : 0 < (utf8Encode text).length := utf8Encode_length_pos hne
  have hmain : (get_text_info level text).map TextInfo.num_qrcodes =
      (split_text level text).map List.length := by
    by_cases hle : (utf8Encode text).length ≤ b
    · rw [split_text_of_le hM hle, get_text_info_of_some text hM]
      have h1 : ((utf8Encode text).length + b - 1) / b = 1 :=
        ceilDiv_one (by omega) hpos hle
      simp [h1]
    · rw [split_text_of_gt hM hle, get_text_info_of_some text hM]
      simp [splitGo_length]
  refine ⟨hmain, ?_⟩
  unfold generate_qrcode_images
  obtain ⟨parts, hp⟩ := split_text_isSome text hM
  rw [hp]
  simp

/-- Witness for the amended C5 at level `M` and text `"a"`. -/
theorem claim_C5_count_match_amended_witness :
    (get_text_info "M" ['a']).map TextInfo.num_qrcodes =
      (split_text "M" ['a']).map List.length ∧
    (generate_qrcode_images "M" ['a']).map List.length =
      (split_text "M" ['a']).map List.length :=
  claim_C5_count_match_amended "M" 2300 ['a'] (by decide) (by decide)



/-- C3: when the text exceeds the budget, `split_text` returns exactly
`ceil(byteLength / budget)` segments, and segment `j` (0-based) starts with
the marker `"[j+1/n]\n"` where `n` is the total segment count. -/
theorem claim_C3_count_and_marks (level : String) (b : Nat) (text : List Char)
    (hM : MAX_BYTES_PER_QR level = some b) (hgt : b < (utf8Encode text).length) :
    ∃ parts, split_text level text = some parts ∧
      parts.length = ((utf8Encode text).length + b - 1) / b ∧
      ∀ j, j < parts.length → ∃ payload,
        parts[j]? = some (partMark (j + 1) parts.length ++ payload) := by
  have hb : 4 ≤ b := MAX_BYTES_ge_four hM
  refine ⟨_, split_text_of_gt hM (by omega), splitGo_length _ _ _ _ _ _, ?_⟩
  intro j hj
  rw [splitGo_length] at hj
  have hinv := splitGo_invariant text b (((utf8Encode text).length + b - 1) / b) (by omega)
    (ceilDiv_pred_mul_lt (by omega) (by omega))
    (((utf8Encode text).length + b - 1) / b) 0 0 [] (by omega) (by omega)
    (by rw [List.take_zero, utf8Decode_nil])
  obtain ⟨payload, hp1, hp2, hp3⟩ := hinv.1 j hj
  refine ⟨payload, ?_⟩
  rw [splitGo_length, hp3]
  have h2 : 2 ≤ ((utf8Encode text).length + b - 1) / b := ceilDiv_two_le (by omega) hgt
  rw [if_pos (by omega)]
  norm_num

/-- Witness for C3: 1201 ASCII bytes at level `H` split into 2 parts. -/
theorem claim_C3_count_and_marks_witness :
    ∃ parts, split_text "H" (List.replicate 1201 'a') = some parts ∧
      parts.length = ((utf8Encode (List.replicate 1201 'a')).length + 1200 - 1) / 1200 ∧
      ∀ j, j < parts.length → ∃ payload,
        parts[j]? = some (partMark (j + 1) parts.length ++ payload) :=
  claim_C3_count_and_marks "H" 1200 (List.replicate 1201 'a') (by decide)
    (by rw [utf8Encode_replicate_a, List.length_replicate]; omega)

/-- C6: when the text exceeds the budget, every byte window chosen by the
loop is non-empty and decodes as complete UTF-8, and every produced
segment consists of the marker followed by a non-empty payload. -/
theorem claim_C6_windows_decode (level : String) (b : Nat) (text : List Char)
    (hM : MAX_BYTES_PER_QR level = some b) (hgt : b < (utf8Encode text).length) :
    ∃ parts, split_text level text = some parts ∧
      (∀ j, j < parts.length → ∃ payload, payload ≠ [] ∧
        parts[j]? = some (partMark (j + 1) parts.length ++ payload)) ∧
      (∀ w ∈ splitBounds (utf8Encode text) b 0 (((utf8Encode text).length + b - 1) / b),
        w.1 < w.2 ∧ (utf8Decode (byteSlice (utf8Encode text) w.1 w.2)).isSome) := by
  have hb : 4 ≤ b := MAX_BYTES_ge_four hM
  have hinv := splitGo_invariant text b (((utf8Encode text).length + b - 1) / b) (by omega)
    (ceilDiv_pred_mul_lt (by omega) (by omega))
    (((utf8Encode text).length + b - 1) / b) 0 0 [] (by omega) (by omega)
    (by rw [List.take_zero, utf8Decode_nil])
  refine ⟨_, split_text_of_gt hM (by omega), ?_, hinv.2⟩
  intro j hj
  rw [splitGo_length] at hj
  obtain ⟨payload, hp1, hp2, hp3⟩ := hinv.1 j hj
  refine ⟨payload, hp1, ?_⟩
  rw [splitGo_length, hp3]
  have h2 : 2 ≤ ((utf8Encode text).length + b - 1) / b := ceilDiv_two_le (by omega) hgt
  rw [if_pos (by omega)]
  norm_num

/-- Witness for C6: 1201 ASCII bytes at level `H`. -/
theorem claim_C6_windows_decode_witness :
    ∃ parts, split_text "H" (List.replicate 1201 'a') = some parts ∧
      (∀ j, j < parts.length → ∃ payload, payload ≠ [] ∧
        parts[j]? = some (partMark (j + 1) parts.length ++ payload)) ∧
      (∀ w ∈ splitBounds (utf8Encode (List.replicate 1201 'a')) 1200 0
          (((utf8Encode (List.replicate 1201 'a')).length + 1200 - 1) / 1200),
        w.1 < w.2 ∧
          (utf8Decode (byteSlice (utf8Encode (List.replicate 1201 'a')) w.1 w.2)).isSome) :=
  claim_C6_windows_decode "H" 1200 (List.replicate 1201 'a') (by decide)
    (by rw [utf8Encode_replicate_a, List.length_replicate]; omega)



/-- C2 fails: at level `H` (budget 1200), splitting 1201 ASCII bytes gives a
first segment whose UTF-8 length with the injected marker is 1206 > 1200. -/
theorem claim_C2_budget_cex :
    MAX_BYTES_PER_QR "H" = some 1200 ∧
    ∃ p, ((split_text "H" (List.replicate 1201 'a')).getD []).head? = some p ∧
      1200 < (utf8Encode p).length := by
  refine ⟨by decide, partMark 1 2 ++ List.replicate 1200 'a', ?_, ?_⟩
  · rw [split_text_H_1201]
    rfl
  · rw [utf8Encode_append, utf8Encode_replicate_a]
    have h6 : (utf8Encode (partMark 1 2)).length = 6 := by decide
    rw [List.length_append, h6, List.length_replicate]
    omega

/-- C2 amended: every segment's payload (the segment with its part marker
removed) re-encodes to at most the budget; the marker itself is not counted
against the budget by the code. -/
theorem claim_C2_budget_amended (level : String) (b : Nat) (text : List Char)
    (hM : MAX_BYTES_PER_QR level = some b) :
    ∃ parts, split_text level text = some parts ∧
      ∀ j, j < parts.length → ∃ mark payload, parts[j]? = some (mark ++ payload) ∧
        (utf8Encode payload).length ≤ b ∧
        (mark = [] ∨ mark = partMark (j + 1) parts.length) := by
  have hb : 4 ≤ b := MAX_BYTES_ge_four hM
  by_cases hle : (utf8Encode text).length ≤ b
  · refine ⟨[text], split_text_of_le hM hle, ?_⟩
    intro j hj
    have hj0 : j = 0 := by simpa using hj
    subst hj0
    exact ⟨[], text, by simp, hle, Or.inl rfl⟩
  · have hinv := splitGo_invariant text b (((utf8Encode text).length + b - 1) / b) (by omega)
      (ceilDiv_pred_mul_lt (by omega) (by omega))
      (((utf8Encode text).length + b - 1) / b) 0 0 [] (by omega) (by omega)
      (by rw [List.take_zero, utf8Decode_nil])
    refine ⟨_, split_text_of_gt hM hle, ?_⟩
    intro j hj
    rw [splitGo_length] at hj
    obtain ⟨payload, hp1, hp2, hp3⟩ := hinv.1 j hj
    have h2 : 2 ≤ ((utf8Encode text).length + b - 1) / b := ceilDiv_two_le (by omega) (by omega)
    refine ⟨partMark (j + 1) (((utf8Encode text).length + b - 1) / b), payload, ?_, hp2,
      Or.inr ?_⟩
    · rw [hp3, if_pos (by omega)]
      norm_num
    · rw [splitGo_length]

/-- Witness for the amended C2 at level `M` and text `"a"`. -/
theorem claim_C2_budget_amended_witness :
    ∃ parts, split_text "M" ['a'] = some parts ∧
      ∀ j, j < parts.length → ∃ mark payload, parts[j]? = some (mark ++ payload) ∧
        (utf8Encode payload).length ≤ 2300 ∧
        (mark = [] ∨ mark = partMark (j + 1) parts.length) :=
  claim_C2_budget_amended "M" 2300 ['a'] (by decide)

/-- C9: `text_to_qrcode` returns one path per segment in order, named
`<prefix>_<i>_of_<n>.png` with 1-based `i` when several segments exist,
and `<prefix>.png` for a single segment. -/
theorem claim_C9_filenames (level : String) (b : Nat) (text outputPre : List Char)
    (hM : MAX_BYTES_PER_QR level = some b) :
    ∃ parts paths, split_text level text = some parts ∧
      text_to_qrcode level text outputPre = some paths ∧
      paths.length = parts.length ∧
      ∀ j, j < paths.length → paths[j]? = some (if 1 < parts.length then
          outputPre ++ "_".data ++ natChars (j + 1) ++ "_of_".data ++
            natChars parts.length ++ ".png".data
        else outputPre ++ ".png".data) := by
  obtain ⟨parts, hp⟩ := split_text_isSome text hM
  have htq : text_to_qrcode level text outputPre =
      some ((List.range parts.length).map (fun i =>
        if 1 < parts.length then outputPre ++ "_".data ++ natChars (i + 1) ++ "_of_".data ++
          natChars parts.length ++ ".png".data
        else outputPre ++ ".png".data)) := by
    unfold text_to_qrcode
    rw [hp]
    rfl
  refine ⟨parts, _, hp, htq, by simp, ?_⟩
  intro j hj
  simp only [List.length_map, List.length_range] at hj
  rw [List.getElem?_map, List.getElem?_range hj]
  rfl

/-- Witness for C9 at level `M`, text `"hi"` and prefix `"qrcode"`. -/
theorem claim_C9_filenames_witness :
    ∃ parts paths, split_text "M" ("hi".data) = some parts ∧
      text_to_qrcode "M" ("hi".data) ("qrcode".data) = some paths ∧
      paths.length = parts.length ∧
      ∀ j, j < paths.length → paths[j]? = some (if 1 < parts.length then
          "qrcode".data ++ "_".data ++ natChars (j + 1) ++ "_of_".data ++
            natChars parts.length ++ ".png".data
        else "qrcode".data ++ ".png".data) :=
  claim_C9_filenames "M" 2300 ("hi".data) ("qrcode".data) (by decide)

/-- C1 fails on the code: at level `H`, on 2400 bytes whose 1200th byte
falls inside a multi-byte character, the second window ends at byte 2399
and the final byte is dropped, so the payloads (the segments with their
6-character markers removed) concatenate to 2397 characters instead of the
original 2398. -/
theorem claim_C1_reconstruction_bug :
    split_text "H" c1Text =
      some [partMark 1 2 ++ List.replicate 1199 'a',
            partMark 2 2 ++ '€' :: List.replicate 1197 'a'] ∧
    List.replicate 1199 'a' ++ '€' :: List.replicate 1197 'a' ≠ c1Text ∧
    c1Text.length = 2398 ∧
    (List.replicate 1199 'a' ++ '€' :: List.replicate 1197 'a').length = 2397 := by
  have hlen1 : c1Text.length = 2398 := by
    unfold c1Text
    simp
  have hlen2 : (List.replicate 1199 'a' ++ '€' :: List.replicate 1197 'a').length = 2397 := by
    simp
  refine ⟨split_text_H_c1Text, ?_, hlen1, hlen2⟩
  intro h
  rw [h] at hlen2
  omega

end TextToQR
